import Mathlib

/-!
Verification of the voice-assistant control loop in
`examples/assistant/assistant.cpp`.

The development shallowly embeds the program: strings are `List Char`,
`std::string::find` is modelled by an explicit scanning function, the
per-cycle body of the `while (is_running)` loop becomes a step function
`cycle` on an explicit state record, and the external collaborators
(voice detector, transcriber, curl) are oracles supplied in the cycle
input.  Machine integers: timestamps are `int64_t` milliseconds, modelled
as `Int`; `std::string::size_t` positions are `Nat` with `npos = 2^64 - 1`
and wrap-around taken modulo `2^64` where the source adds to a `find`
result.
-/

/-- Strings of the embedded program: C++ `std::string` as a list of chars. -/
abbrev Str : Type := List Char

/-- The double-quote character, built by code so that string literals in
this file stay free of quote escapes. -/
def quoteChar : Char := Char.ofNat 34

/-- The newline character, the delimiter used by `std::getline`. -/
def newlineChar : Char := Char.ofNat 10

/-- Opening curly brace. -/
def lbrace : Char := Char.ofNat 123

/-- Closing curly brace. -/
def rbrace : Char := Char.ofNat 125

/-- Scan `text` left to right for the first position (counting from `i`)
where `pat` is a prefix of the remaining text: the search underlying
`std::string::find`. -/
def findFrom (pat : Str) : Str → Nat → Option Nat
  | [], i => if pat.isPrefixOf [] then some i else none
  | c :: tl, i => if pat.isPrefixOf (c :: tl) then some i else findFrom pat tl (i + 1)

/-- `contains_wake_word(text, wake_word)` from assistant.cpp line 116:
`text.find(wake_word) != std::string::npos`. -/
def contains_wake_word (text wake_word : Str) : Bool :=
  (findFrom wake_word text 0).isSome

/-- `std::string::npos` for a 64-bit `size_t`. -/
def npos : Nat := 2 ^ 64 - 1

/-- `line.find(pat, pos)` returning an absolute index, or `npos` when the
pattern does not occur at or after `pos`. -/
def findN (pat : Str) (text : Str) (pos : Nat) : Nat :=
  match findFrom pat (text.drop pos) 0 with
  | some j => pos + j
  | none => npos

/-- `line.substr(pos, cnt)`.  On every path the parser reaches, `pos` is
at most the line length, so the clamping model agrees with the C++
behaviour (which would throw for `pos > size()`). -/
def substr (s : Str) (pos cnt : Nat) : Str :=
  (s.drop pos).take cnt

/-- Split a response body into lines the way the `std::getline` loop in
`call_ollama` does: the delimiter is consumed, a trailing newline yields
no extra empty line, and an empty body yields no lines. -/
def linesOf : Str → List Str
  | [] => []
  | c :: rest =>
    if c = newlineChar then [] :: linesOf rest
    else
      match linesOf rest with
      | [] => [[c]]
      | l :: ls => (c :: l) :: ls

/-- The 11-character search key `"response":` from assistant.cpp line 84. -/
def respKey : Str := quoteChar :: ("response".data ++ [quoteChar, ':'])

/-- The 12-character search key `"response":"` from assistant.cpp line 85. -/
def respKeyQ : Str := respKey ++ [quoteChar]

/-- One iteration of the line loop in `call_ollama` (lines 83-90):
if the line contains `"response":`, compute
`start = line.find("\x22response\x22:\x22") + 11` (a 12-character pattern,
with `size_t` wrap-around when `find` returns `npos`), then
`end = line.find(quote, start)`, and extract `line.substr(start, end - start)`
when both indices differ from `npos`. -/
def extract_line (line : Str) : Str :=
  if findN respKey line 0 ≠ npos then
    let start := (findN respKeyQ line 0 + 11) % 2 ^ 64
    let endp := findN [quoteChar] line start
    if start ≠ npos ∧ endp ≠ npos then substr line start (endp - start) else []
  else []

/-- The response-parsing loop of `call_ollama`: concatenate the extracts
of all lines in order. -/
def extract_response (body : Str) : Str :=
  (linesOf body).foldl (fun acc l => acc ++ extract_line l) []

/-- `call_ollama` (lines 58-101), with the network modelled as an oracle:
`curl_ok` is whether `curl_easy_perform` returned `CURLE_OK` and `body`
is the accumulated response data.  On failure the function logs and
returns the (still empty) `result`. -/
def call_ollama (curl_ok : Bool) (body : Str) : Str :=
  if curl_ok then extract_response body else []

/-- Events emitted by one loop cycle, mirroring the observable actions of
the source: the `[Assistant activated]` print, the `printf("%s", text)`
per appended segment, the `[Processing: ...]` print that closes an
utterance, and the `[Assistant]: ...` reply print. -/
inductive Event where
  | Activated : Event
  | PartialText : Str → Event
  | Finalize : Str → Event
  | Reply : Str → Event
deriving DecidableEq

/-- The mutable fields of `assistant_params` that the loop reads and
writes: `is_active`, `current_segment`, `last_speech_time`.
`last_speech_set` is ghost instrumentation, not a field of the source
struct: it records whether the assignment to `last_speech_time`
(line 205) has ever executed, which is the embedding of the spec's
notion of `lastSpeechAt` being *defined* (the source itself keeps a raw
`int64_t` initialised to 0 and never invalidates it). -/
structure AssistantState where
  is_active : Bool
  current_segment : Str
  last_speech_time : Int
  last_speech_set : Bool
deriving DecidableEq

/-- The per-cycle oracle inputs: the VAD verdict for the fetched window,
whether `whisper_full` succeeded, the transcript segments it produced,
the wall-clock time in milliseconds, and the curl oracle for a dispatch
performed this cycle. -/
structure CycleInput where
  vad : Bool
  transcribeOk : Bool
  segs : List Str
  now : Int
  dispatchOk : Bool
  dispatchBody : Str
deriving DecidableEq

/-- The segment loop of assistant.cpp lines 225-241: for each segment, if
not active, a wake-word match activates and discards that segment
(`continue`); otherwise, when active, the segment text is appended to
`current_segment` and printed. -/
def processSegments (wake : Str) : AssistantState → List Str → AssistantState × List Event
  | st, [] => (st, [])
  | st, text :: rest =>
    if st.is_active = false then
      if contains_wake_word text wake then
        let r := processSegments wake { st with is_active := true } rest
        (r.1, Event.Activated :: r.2)
      else
        processSegments wake st rest
    else
      let r := processSegments wake { st with current_segment := st.current_segment ++ text } rest
      (r.1, Event.PartialText text :: r.2)

/-- One iteration of the `while (is_running)` loop (lines 197-269).
On a speech verdict, `last_speech_time` is set to `now` (line 205)
before transcription; a transcription failure then `continue`s.  On a
silence verdict, the utterance is finalized and dispatched exactly when
`is_active` holds, `now - last_speech_time` strictly exceeds
`silence_threshold_ms`, and `current_segment` is non-empty; the reset
(lines 258-260) clears only `current_segment` and `is_active`. -/
def cycle (wake : Str) (thr : Int) (st : AssistantState) (inp : CycleInput) :
    AssistantState × List Event :=
  if inp.vad then
    let st1 : AssistantState :=
      { st with last_speech_time := inp.now, last_speech_set := true }
    if inp.transcribeOk then processSegments wake st1 inp.segs else (st1, [])
  else
    if st.is_active = true ∧ thr < inp.now - st.last_speech_time ∧ st.current_segment ≠ [] then
      let reply := call_ollama inp.dispatchOk inp.dispatchBody
      ({ st with current_segment := [], is_active := false },
        [Event.Finalize st.current_segment, Event.Reply reply])
    else
      (st, [])

/-- Run a list of cycles from a state, concatenating the emitted events. -/
def run (wake : Str) (thr : Int) : AssistantState → List CycleInput → AssistantState × List Event
  | st, [] => (st, [])
  | st, inp :: rest =>
    let r1 := cycle wake thr st inp
    let r2 := run wake thr r1.1 rest
    (r2.1, r1.2 ++ r2.2)

/-- The initial `assistant_params` mutable state: not active, empty
segment, `last_speech_time = 0` (and, in ghost terms, never yet set). -/
def init_assistant : AssistantState :=
  { is_active := false, current_segment := [], last_speech_time := 0, last_speech_set := false }

/-- A state is reachable when some sequence of cycle inputs produces it
from the initial state. -/
def Reachable (wake : Str) (thr : Int) (s : AssistantState) : Prop :=
  ∃ inputs : List CycleInput, (run wake thr init_assistant inputs).1 = s

/-- Whether an event list contains a `Finalize`. -/
def emitsFinalize (evs : List Event) : Bool :=
  evs.any (fun e => match e with | Event.Finalize _ => true | _ => false)

/-- The texts of the `PartialText` events of a list, in order. -/
def textsOf (evs : List Event) : List Str :=
  evs.filterMap (fun e => match e with | Event.PartialText t => some t | _ => none)

/-- The default wake word of `assistant_params`. -/
def wake0 : Str := "test".data

/-- A canonical well-formed ollama response line
`\x7b"response":"hello"\x7d`, built without brace or quote literals. -/
def failing_body : Str := lbrace :: (respKeyQ ++ ("hello".data ++ [quoteChar, rbrace]))

theorem findFrom_isSome_iff (pat : Str) (text : Str) :
    ∀ i : Nat, (findFrom pat text i).isSome = true ↔ pat <:+: text := by
  induction text with
  | nil =>
    intro i
    cases pat with
    | nil => simp [findFrom, List.isPrefixOf]
    | cons c tl => simp [findFrom, List.isPrefixOf]
  | cons c tl ih =>
    intro i
    by_cases h : pat.isPrefixOf (c :: tl) = true
    · simp only [findFrom, h, if_pos, Option.isSome_some, true_iff]
      exact (List.isPrefixOf_iff_prefix.mp h).isInfix
    · simp only [findFrom, h, if_neg, Bool.false_eq_true, if_false]
      rw [ih (i + 1), List.infix_cons_iff]
      constructor
      · exact fun h2 => Or.inr h2
      · rintro (h2 | h2)
        · exact absurd (List.isPrefixOf_iff_prefix.mpr h2) h
        · exact h2


theorem processSegments_nil (wake : Str) (st : AssistantState) :
    processSegments wake st [] = (st, []) := rfl

theorem processSegments_cons (wake text : Str) (rest : List Str) (st : AssistantState) :
    processSegments wake st (text :: rest) =
      if st.is_active = false then
        if contains_wake_word text wake then
          ((processSegments wake { st with is_active := true } rest).1,
            Event.Activated :: (processSegments wake { st with is_active := true } rest).2)
        else processSegments wake st rest
      else
        ((processSegments wake
            { st with current_segment := st.current_segment ++ text } rest).1,
          Event.PartialText text ::
            (processSegments wake
              { st with current_segment := st.current_segment ++ text } rest).2) := rfl

theorem processSegments_armed (wake : Str) (segs : List Str) :
    ∀ st : AssistantState, st.is_active = true →
      processSegments wake st segs =
        ({ st with current_segment := st.current_segment ++ segs.flatten },
          segs.map Event.PartialText) := by
  induction segs with
  | nil =>
    intro st h
    simp [processSegments_nil]
  | cons text rest ih =>
    intro st h
    rw [processSegments_cons, if_neg (by simp [h]),
      ih { st with current_segment := st.current_segment ++ text } h]
    simp [List.append_assoc]

theorem processSegments_dormant_nomatch (wake : Str) (segs : List Str) :
    ∀ st : AssistantState, st.is_active = false →
      (∀ s ∈ segs, contains_wake_word s wake = false) →
      processSegments wake st segs = (st, []) := by
  induction segs with
  | nil =>
    intro st h hn
    exact processSegments_nil wake st
  | cons text rest ih =>
    intro st h hn
    have htext : contains_wake_word text wake = false := hn text (List.mem_cons_self text rest)
    rw [processSegments_cons, if_pos h, if_neg (by simp [htext])]
    exact ih st h (fun s hs => hn s (List.mem_cons_of_mem text hs))

theorem processSegments_keeps_time (wake : Str) (segs : List Str) :
    ∀ st : AssistantState,
      (processSegments wake st segs).1.last_speech_time = st.last_speech_time ∧
      (processSegments wake st segs).1.last_speech_set = st.last_speech_set := by
  induction segs with
  | nil =>
    intro st
    simp [processSegments_nil]
  | cons text rest ih =>
    intro st
    rw [processSegments_cons]
    by_cases h : st.is_active = false
    · rw [if_pos h]
      by_cases hm : contains_wake_word text wake = true
      · rw [if_pos hm]
        exact ih { st with is_active := true }
      · rw [if_neg (by simp [hm])]
        exact ih st
    · rw [if_neg h]
      exact ih { st with current_segment := st.current_segment ++ text }

theorem processSegments_cs_texts (wake : Str) (segs : List Str) :
    ∀ st : AssistantState,
      (processSegments wake st segs).1.current_segment =
        st.current_segment ++ (textsOf (processSegments wake st segs).2).flatten := by
  induction segs with
  | nil =>
    intro st
    simp [processSegments_nil, textsOf]
  | cons text rest ih =>
    intro st
    rw [processSegments_cons]
    by_cases h : st.is_active = false
    · rw [if_pos h]
      by_cases hm : contains_wake_word text wake = true
      · rw [if_pos hm]
        have := ih { st with is_active := true }
        simpa [textsOf] using this
      · rw [if_neg (by simp [hm])]
        exact ih st
    · rw [if_neg h]
      have := ih { st with current_segment := st.current_segment ++ text }
      simp only [textsOf, List.filterMap_cons] at this ⊢
      rw [this]
      simp [List.append_assoc]

theorem processSegments_noFinal (wake : Str) (segs : List Str) :
    ∀ st : AssistantState, emitsFinalize (processSegments wake st segs).2 = false := by
  induction segs with
  | nil =>
    intro st
    simp [processSegments_nil, emitsFinalize]
  | cons text rest ih =>
    intro st
    rw [processSegments_cons]
    by_cases h : st.is_active = false
    · rw [if_pos h]
      by_cases hm : contains_wake_word text wake = true
      · rw [if_pos hm]
        have := ih { st with is_active := true }
        simpa [emitsFinalize] using this
      · rw [if_neg (by simp [hm])]
        exact ih st
    · rw [if_neg h]
      have := ih { st with current_segment := st.current_segment ++ text }
      simpa [emitsFinalize] using this

theorem processSegments_noActivated_of_armed (wake : Str) (segs : List Str)
    (st : AssistantState) (h : st.is_active = true) :
    Event.Activated ∉ (processSegments wake st segs).2 := by
  rw [processSegments_armed wake segs st h]
  simp

theorem processSegments_active_mono (wake : Str) (segs : List Str)
    (st : AssistantState) (h : st.is_active = true) :
    (processSegments wake st segs).1.is_active = true := by
  rw [processSegments_armed wake segs st h]
  exact h

theorem processSegments_inv (wake : Str) (segs : List Str) :
    ∀ st : AssistantState, (st.is_active = false → st.current_segment = []) →
      ((processSegments wake st segs).1.is_active = false →
        (processSegments wake st segs).1.current_segment = []) := by
  induction segs with
  | nil =>
    intro st h
    simpa [processSegments_nil] using h
  | cons text rest ih =>
    intro st h
    rw [processSegments_cons]
    by_cases ha : st.is_active = false
    · rw [if_pos ha]
      by_cases hm : contains_wake_word text wake = true
      · rw [if_pos hm]
        intro hend
        have hact := processSegments_active_mono wake rest { st with is_active := true } rfl
        rw [hend] at hact
        exact absurd hact (by simp)
      · rw [if_neg (by simp [hm])]
        exact ih st h
    · rw [if_neg ha]
      intro hend
      have hact := processSegments_active_mono wake rest
        { st with current_segment := st.current_segment ++ text } (by simpa using ha)
      rw [hend] at hact
      exact absurd hact (by simp)

theorem cycle_speech_ok (wake : Str) (thr : Int) (st : AssistantState) (inp : CycleInput)
    (hv : inp.vad = true) (ht : inp.transcribeOk = true) :
    cycle wake thr st inp =
      processSegments wake
        { st with last_speech_time := inp.now, last_speech_set := true } inp.segs := by
  simp [cycle, hv, ht]

theorem cycle_speech_fail (wake : Str) (thr : Int) (st : AssistantState) (inp : CycleInput)
    (hv : inp.vad = true) (ht : inp.transcribeOk = false) :
    cycle wake thr st inp =
      ({ st with last_speech_time := inp.now, last_speech_set := true }, []) := by
  simp [cycle, hv, ht]

theorem cycle_silence_fire (wake : Str) (thr : Int) (st : AssistantState) (inp : CycleInput)
    (hv : inp.vad = false) (ha : st.is_active = true)
    (hgap : thr < inp.now - st.last_speech_time) (hne : st.current_segment ≠ []) :
    cycle wake thr st inp =
      ({ st with current_segment := [], is_active := false },
        [Event.Finalize st.current_segment,
          Event.Reply (call_ollama inp.dispatchOk inp.dispatchBody)]) := by
  simp only [cycle, hv, Bool.false_eq_true, if_false]
  rw [if_pos ⟨ha, hgap, hne⟩]

theorem cycle_silence_idle (wake : Str) (thr : Int) (st : AssistantState) (inp : CycleInput)
    (hv : inp.vad = false)
    (hc : ¬(st.is_active = true ∧ thr < inp.now - st.last_speech_time ∧
      st.current_segment ≠ [])) :
    cycle wake thr st inp = (st, []) := by
  simp only [cycle, hv, Bool.false_eq_true, if_false]
  rw [if_neg hc]

theorem cycle_finalize_clears (wake : Str) (thr : Int) (st : AssistantState) (inp : CycleInput)
    (hf : emitsFinalize (cycle wake thr st inp).2 = true) :
    inp.vad = false ∧ st.is_active = true ∧ st.current_segment ≠ [] ∧
    thr < inp.now - st.last_speech_time ∧
    (cycle wake thr st inp).2 =
      [Event.Finalize st.current_segment,
        Event.Reply (call_ollama inp.dispatchOk inp.dispatchBody)] ∧
    (cycle wake thr st inp).1.is_active = false ∧
    (cycle wake thr st inp).1.current_segment = [] := by
  cases hv : inp.vad with
  | true =>
    exfalso
    cases ht : inp.transcribeOk with
    | true =>
      rw [cycle_speech_ok wake thr st inp hv ht, processSegments_noFinal] at hf
      simp at hf
    | false =>
      rw [cycle_speech_fail wake thr st inp hv ht] at hf
      simp [emitsFinalize] at hf
  | false =>
    by_cases hc : (st.is_active = true ∧ thr < inp.now - st.last_speech_time ∧
        st.current_segment ≠ [])
    · obtain ⟨ha, hgap, hne⟩ := hc
      rw [cycle_silence_fire wake thr st inp hv ha hgap hne]
      exact ⟨rfl, ha, hne, hgap, rfl, rfl, rfl⟩
    · rw [cycle_silence_idle wake thr st inp hv hc] at hf
      simp [emitsFinalize] at hf

theorem run_nil (wake : Str) (thr : Int) (st : AssistantState) :
    run wake thr st [] = (st, []) := rfl

theorem run_cons (wake : Str) (thr : Int) (st : AssistantState) (inp : CycleInput)
    (rest : List CycleInput) :
    run wake thr st (inp :: rest) =
      ((run wake thr (cycle wake thr st inp).1 rest).1,
        (cycle wake thr st inp).2 ++ (run wake thr (cycle wake thr st inp).1 rest).2) := rfl

theorem cycle_cs_texts (wake : Str) (thr : Int) (st : AssistantState) (inp : CycleInput)
    (h : emitsFinalize (cycle wake thr st inp).2 = false) :
    (cycle wake thr st inp).1.current_segment =
      st.current_segment ++ (textsOf (cycle wake thr st inp).2).flatten := by
  cases hv : inp.vad with
  | true =>
    cases ht : inp.transcribeOk with
    | true =>
      rw [cycle_speech_ok wake thr st inp hv ht]
      exact processSegments_cs_texts wake inp.segs
        { st with last_speech_time := inp.now, last_speech_set := true }
    | false =>
      rw [cycle_speech_fail wake thr st inp hv ht]
      simp [textsOf]
  | false =>
    by_cases hc : (st.is_active = true ∧ thr < inp.now - st.last_speech_time ∧
        st.current_segment ≠ [])
    · obtain ⟨ha, hgap, hne⟩ := hc
      rw [cycle_silence_fire wake thr st inp hv ha hgap hne] at h
      simp [emitsFinalize] at h
    · rw [cycle_silence_idle wake thr st inp hv hc]
      simp [textsOf]

theorem run_cs_texts (wake : Str) (thr : Int) (inputs : List CycleInput) :
    ∀ st : AssistantState, emitsFinalize (run wake thr st inputs).2 = false →
      (run wake thr st inputs).1.current_segment =
        st.current_segment ++ (textsOf (run wake thr st inputs).2).flatten := by
  induction inputs with
  | nil =>
    intro st h
    simp [run_nil, textsOf]
  | cons inp rest ih =>
    intro st h
    rw [run_cons] at h ⊢
    simp only [emitsFinalize, List.any_append, Bool.or_eq_false_iff] at h
    have h1 : emitsFinalize (cycle wake thr st inp).2 = false := h.1
    have h2 : emitsFinalize (run wake thr (cycle wake thr st inp).1 rest).2 = false := h.2
    have e1 := cycle_cs_texts wake thr st inp h1
    have e2 := ih (cycle wake thr st inp).1 h2
    rw [e2, e1]
    simp [textsOf, List.filterMap_append, List.append_assoc]

theorem cycle_inv (wake : Str) (thr : Int) (st : AssistantState) (inp : CycleInput)
    (h : st.is_active = false → st.current_segment = []) :
    (cycle wake thr st inp).1.is_active = false →
      (cycle wake thr st inp).1.current_segment = [] := by
  cases hv : inp.vad with
  | true =>
    cases ht : inp.transcribeOk with
    | true =>
      rw [cycle_speech_ok wake thr st inp hv ht]
      exact processSegments_inv wake inp.segs
        { st with last_speech_time := inp.now, last_speech_set := true } h
    | false =>
      rw [cycle_speech_fail wake thr st inp hv ht]
      exact h
  | false =>
    by_cases hc : (st.is_active = true ∧ thr < inp.now - st.last_speech_time ∧
        st.current_segment ≠ [])
    · obtain ⟨ha, hgap, hne⟩ := hc
      rw [cycle_silence_fire wake thr st inp hv ha hgap hne]
      intro _
      rfl
    · rw [cycle_silence_idle wake thr st inp hv hc]
      exact h

theorem run_inv (wake : Str) (thr : Int) (inputs : List CycleInput) :
    ∀ st : AssistantState, (st.is_active = false → st.current_segment = []) →
      ((run wake thr st inputs).1.is_active = false →
        (run wake thr st inputs).1.current_segment = []) := by
  induction inputs with
  | nil =>
    intro st h
    exact h
  | cons inp rest ih =>
    intro st h
    rw [run_cons]
    exact ih (cycle wake thr st inp).1 (cycle_inv wake thr st inp h)

theorem processSegments_dormant_match (wake : Str) (pre : List Str) (m : Str)
    (post : List Str) :
    ∀ st : AssistantState, st.is_active = false →
      (∀ s ∈ pre, contains_wake_word s wake = false) →
      contains_wake_word m wake = true →
      processSegments wake st (pre ++ m :: post) =
        ({ st with
            is_active := true
            current_segment := st.current_segment ++ post.flatten },
          Event.Activated :: post.map Event.PartialText) := by
  induction pre with
  | nil =>
    intro st h hn hm
    rw [List.nil_append, processSegments_cons, if_pos h, if_pos hm,
      processSegments_armed wake post { st with is_active := true } rfl]
  | cons s0 pre' ih =>
    intro st h hn hm
    have hs0 : contains_wake_word s0 wake = false := hn s0 (List.mem_cons_self s0 pre')
    rw [List.cons_append, processSegments_cons, if_pos h, if_neg (by simp [hs0])]
    exact ih st h (fun s hs => hn s (List.mem_cons_of_mem s0 hs)) hm

/-- C4: for every segment text S and wake phrase W, the matcher
`contains_wake_word(S, W)` returns true exactly when W occurs as a
contiguous, case-sensitive substring (a `List.IsInfix`) of S; as a Lean
function of its two arguments it is pure and stateless. -/
theorem contains_wake_word_correct (text wake : Str) :
    contains_wake_word text wake = true ↔ wake <:+: text := by
  unfold contains_wake_word
  exact findFrom_isSome_iff wake text 0

theorem contains_wake_word_correct_witness :
    contains_wake_word ("hey".data) ("ey".data) = true :=
  (contains_wake_word_correct ("hey".data) ("ey".data)).mpr ⟨['h'], [], by decide⟩

/-- C10: the matcher accepts the empty wake phrase on every text, so with
`wake = []` any Dormant speech cycle that produces at least one
transcript segment activates the machine and emits `Activated`. -/
theorem empty_wake_always_matches (thr : Int) (st : AssistantState) (inp : CycleInput) :
    (∀ text : Str, contains_wake_word text [] = true) ∧
    (st.is_active = false → inp.vad = true → inp.transcribeOk = true → inp.segs ≠ [] →
      (cycle [] thr st inp).1.is_active = true ∧
      Event.Activated ∈ (cycle [] thr st inp).2) := by
  have hall : ∀ text : Str, contains_wake_word text [] = true := by
    intro text
    cases text <;> rfl
  refine ⟨hall, ?_⟩
  intro hD hv ht hs
  rw [cycle_speech_ok [] thr st inp hv ht]
  cases hseg : inp.segs with
  | nil => exact absurd hseg hs
  | cons s0 rest =>
    rw [processSegments_cons, if_pos hD, if_pos (hall s0)]
    constructor
    · exact processSegments_active_mono [] rest _ rfl
    · exact List.mem_cons_self _ _

theorem empty_wake_always_matches_witness :
    (cycle [] 1000 init_assistant ⟨true, true, [['h']], 3, true, []⟩).1.is_active = true :=
  ((empty_wake_always_matches 1000 init_assistant ⟨true, true, [['h']], 3, true, []⟩).2
    rfl rfl rfl (by decide)).1

/-- C9 (code bug): `failing_body` is the canonical well-formed service
response line `\x7b"response":"hello"\x7d`, whose `"response"` fragment
`hello` occurs between the quotes, yet `call_ollama` returns the empty
string on it: `start = find(12-char key) + 11` lands on the opening
quote of the value, so `end = find(quote, start) = start` and the
extracted substring is empty.  On a failed service call the reply is
empty as specified. -/
theorem call_ollama_offby_one :
    ("hello".data <:+: failing_body) ∧
    call_ollama true failing_body = [] ∧
    (∀ body : Str, call_ollama false body = []) := by
  refine ⟨⟨lbrace :: respKeyQ, [quoteChar, rbrace], by decide⟩, by decide, fun body => rfl⟩

/-- C7 counterexample: `lastSpeechAt` is *not* defined only while Armed.
After a single speech cycle whose segment does not match the wake word,
the machine is still Dormant yet `last_speech_time` has been assigned
(ghost flag `last_speech_set` is true, and the value is the cycle's
`now`); and after a full activate-speak-finalize session the state is
Dormant again but the reset never invalidated `last_speech_time`. -/
theorem last_speech_defined_while_dormant :
    ((run wake0 1000 init_assistant
        [⟨true, true, [['h','i']], 5, true, []⟩]).1.is_active = false ∧
      (run wake0 1000 init_assistant
        [⟨true, true, [['h','i']], 5, true, []⟩]).1.last_speech_set = true ∧
      (run wake0 1000 init_assistant
        [⟨true, true, [['h','i']], 5, true, []⟩]).1.last_speech_time = 5) ∧
    ((run wake0 1000 init_assistant
        [⟨true, true, [wake0], 5, true, []⟩, ⟨true, true, [['a','b']], 6, true, []⟩,
          ⟨false, true, [], 2000, false, []⟩]).1.is_active = false ∧
      (run wake0 1000 init_assistant
        [⟨true, true, [wake0], 5, true, []⟩, ⟨true, true, [['a','b']], 6, true, []⟩,
          ⟨false, true, [], 2000, false, []⟩]).1.last_speech_set = true ∧
      (run wake0 1000 init_assistant
        [⟨true, true, [wake0], 5, true, []⟩, ⟨true, true, [['a','b']], 6, true, []⟩,
          ⟨false, true, [], 2000, false, []⟩]).1.last_speech_time = 6) := by
  constructor <;> refine ⟨by decide, by decide, by decide⟩

/-- C7 amended: `last_speech_time` is refreshed to `now` on every cycle
with a speech verdict regardless of the conversation state (also while
Dormant), and it is never invalidated: silence cycles — including the
finalize-and-dispatch reset, which clears only the utterance and the
active flag — leave both the value and the ghost set-flag unchanged. -/
theorem last_speech_refresh (wake : Str) (thr : Int) (st : AssistantState) (inp : CycleInput) :
    (inp.vad = true →
      (cycle wake thr st inp).1.last_speech_time = inp.now ∧
      (cycle wake thr st inp).1.last_speech_set = true) ∧
    (inp.vad = false →
      (cycle wake thr st inp).1.last_speech_time = st.last_speech_time ∧
      (cycle wake thr st inp).1.last_speech_set = st.last_speech_set) := by
  constructor
  · intro hv
    cases ht : inp.transcribeOk with
    | true =>
      rw [cycle_speech_ok wake thr st inp hv ht]
      exact processSegments_keeps_time wake inp.segs
        { st with last_speech_time := inp.now, last_speech_set := true }
    | false =>
      rw [cycle_speech_fail wake thr st inp hv ht]
      exact ⟨rfl, rfl⟩
  · intro hv
    by_cases hc : (st.is_active = true ∧ thr < inp.now - st.last_speech_time ∧
        st.current_segment ≠ [])
    · obtain ⟨ha, hgap, hne⟩ := hc
      rw [cycle_silence_fire wake thr st inp hv ha hgap hne]
      exact ⟨rfl, rfl⟩
    · rw [cycle_silence_idle wake thr st inp hv hc]
      exact ⟨rfl, rfl⟩

theorem last_speech_refresh_witness :
    (cycle wake0 1000 init_assistant ⟨true, true, [], 5, true, []⟩).1.last_speech_time = 5 :=
  ((last_speech_refresh wake0 1000 init_assistant ⟨true, true, [], 5, true, []⟩).1 rfl).1

/-- C1: a cycle emits a `Finalize` event (carrying the accumulated
utterance, followed by clearing the utterance and leaving Armed) if and
only if no speech is detected, the state is Armed, the utterance is
non-empty, and the elapsed silence `now - last_speech_time` strictly
exceeds the threshold; in particular with `lastSpeechAt = T` a
silence-only cycle at `now = T + thr + 1` finalizes and one at
`now = T + thr - 1` does not, and an empty utterance never finalizes. -/
theorem cycle_finalize_iff (wake : Str) (thr : Int) (st : AssistantState) (inp : CycleInput) :
    (emitsFinalize (cycle wake thr st inp).2 = true ↔
      (inp.vad = false ∧ st.is_active = true ∧ st.current_segment ≠ [] ∧
        thr < inp.now - st.last_speech_time)) ∧
    (emitsFinalize (cycle wake thr st inp).2 = true →
      (cycle wake thr st inp).2 =
        [Event.Finalize st.current_segment,
          Event.Reply (call_ollama inp.dispatchOk inp.dispatchBody)] ∧
      (cycle wake thr st inp).1.current_segment = [] ∧
      (cycle wake thr st inp).1.is_active = false) ∧
    (st.is_active = true → st.current_segment ≠ [] →
      emitsFinalize (cycle wake thr st
        ⟨false, true, [], st.last_speech_time + thr + 1, true, []⟩).2 = true ∧
      emitsFinalize (cycle wake thr st
        ⟨false, true, [], st.last_speech_time + thr - 1, true, []⟩).2 = false) ∧
    (st.current_segment = [] → emitsFinalize (cycle wake thr st inp).2 = false) := by
  refine ⟨⟨?_, ?_⟩, ?_, ?_, ?_⟩
  · intro hf
    obtain ⟨hv, ha, hne, hgap, _, _, _⟩ := cycle_finalize_clears wake thr st inp hf
    exact ⟨hv, ha, hne, hgap⟩
  · rintro ⟨hv, ha, hne, hgap⟩
    rw [cycle_silence_fire wake thr st inp hv ha hgap hne]
    rfl
  · intro hf
    obtain ⟨_, _, _, _, he, hact, hcs⟩ := cycle_finalize_clears wake thr st inp hf
    exact ⟨he, hcs, hact⟩
  · intro ha hne
    constructor
    · have hgap : thr < st.last_speech_time + thr + 1 - st.last_speech_time := by omega
      rw [cycle_silence_fire wake thr st
        ⟨false, true, [], st.last_speech_time + thr + 1, true, []⟩ rfl ha hgap hne]
      rfl
    · have hc : ¬(st.is_active = true ∧
          thr < st.last_speech_time + thr - 1 - st.last_speech_time ∧
          st.current_segment ≠ []) := by
        rintro ⟨_, hg, _⟩
        omega
      rw [cycle_silence_idle wake thr st
        ⟨false, true, [], st.last_speech_time + thr - 1, true, []⟩ rfl hc]
      rfl
  · intro hcs
    cases hv : inp.vad with
    | true =>
      cases ht : inp.transcribeOk with
      | true =>
        rw [cycle_speech_ok wake thr st inp hv ht]
        exact processSegments_noFinal wake inp.segs _
      | false =>
        rw [cycle_speech_fail wake thr st inp hv ht]
        rfl
    | false =>
      rw [cycle_silence_idle wake thr st inp hv
        (by rintro ⟨_, _, hne⟩; exact hne hcs)]
      rfl

theorem cycle_finalize_iff_witness :
    emitsFinalize (cycle wake0 1000 ⟨true, ['a'], 0, true⟩
      ⟨false, true, [], 1001, true, []⟩).2 = true :=
  (cycle_finalize_iff wake0 1000 ⟨true, ['a'], 0, true⟩
    ⟨false, true, [], 1001, true, []⟩).1.mpr (by decide)

/-- C2: from Dormant with speech, the first segment that contains the
wake phrase activates the machine (emitting `Activated`), that segment's
text is discarded, and the machine is Armed (segments arriving later in
the same cycle are then appended while Armed); with silence, a failed
transcription, or no matching segment, the machine stays Dormant with
the utterance untouched and no event; and leaving Dormant happens only
on a successful speech cycle with a matching segment. -/
theorem dormant_transitions (wake : Str) (thr : Int) (st : AssistantState) (inp : CycleInput)
    (hD : st.is_active = false) :
    (∀ pre m post, inp.vad = true → inp.transcribeOk = true →
      inp.segs = pre ++ m :: post →
      (∀ s ∈ pre, contains_wake_word s wake = false) →
      contains_wake_word m wake = true →
      (cycle wake thr st inp).1.is_active = true ∧
      (cycle wake thr st inp).1.current_segment = st.current_segment ++ post.flatten ∧
      (cycle wake thr st inp).2 = Event.Activated :: post.map Event.PartialText) ∧
    (inp.vad = false ∨ inp.transcribeOk = false ∨
        (∀ s ∈ inp.segs, contains_wake_word s wake = false) →
      (cycle wake thr st inp).1.is_active = false ∧
      (cycle wake thr st inp).1.current_segment = st.current_segment ∧
      (cycle wake thr st inp).2 = []) ∧
    ((cycle wake thr st inp).1.is_active = true →
      inp.vad = true ∧ inp.transcribeOk = true ∧
        ∃ s ∈ inp.segs, contains_wake_word s wake = true) := by
  have hidle : inp.vad = false → cycle wake thr st inp = (st, []) := fun hv =>
    cycle_silence_idle wake thr st inp hv
      (by rintro ⟨ha, _, _⟩; rw [hD] at ha; exact Bool.noConfusion ha)
  refine ⟨?_, ?_, ?_⟩
  · intro pre m post hv ht hseg hn hm
    rw [cycle_speech_ok wake thr st inp hv ht, hseg,
      processSegments_dormant_match wake pre m post
        { st with last_speech_time := inp.now, last_speech_set := true } hD hn hm]
    exact ⟨rfl, rfl, rfl⟩
  · intro hcase
    rcases hcase with hv | ht | hn
    · rw [hidle hv]
      exact ⟨hD, rfl, rfl⟩
    · cases hv : inp.vad with
      | false =>
        rw [hidle hv]
        exact ⟨hD, rfl, rfl⟩
      | true =>
        rw [cycle_speech_fail wake thr st inp hv ht]
        exact ⟨hD, rfl, rfl⟩
    · cases hv : inp.vad with
      | false =>
        rw [hidle hv]
        exact ⟨hD, rfl, rfl⟩
      | true =>
        cases ht : inp.transcribeOk with
        | false =>
          rw [cycle_speech_fail wake thr st inp hv ht]
          exact ⟨hD, rfl, rfl⟩
        | true =>
          rw [cycle_speech_ok wake thr st inp hv ht,
            processSegments_dormant_nomatch wake inp.segs
              { st with last_speech_time := inp.now, last_speech_set := true } hD hn]
          exact ⟨hD, rfl, rfl⟩
  · intro hact
    cases hv : inp.vad with
    | false =>
      rw [hidle hv] at hact
      rw [hD] at hact
      exact Bool.noConfusion hact
    | true =>
      cases ht : inp.transcribeOk with
      | false =>
        rw [cycle_speech_fail wake thr st inp hv ht] at hact
        rw [hD] at hact
        exact Bool.noConfusion hact
      | true =>
        refine ⟨rfl, rfl, ?_⟩
        by_cases hex : ∃ s ∈ inp.segs, contains_wake_word s wake = true
        · exact hex
        · exfalso
          push_neg at hex
          have hn : ∀ s ∈ inp.segs, contains_wake_word s wake = false :=
            fun s hs => Bool.eq_false_iff.mpr (hex s hs)
          rw [cycle_speech_ok wake thr st inp hv ht,
            processSegments_dormant_nomatch wake inp.segs
              { st with last_speech_time := inp.now, last_speech_set := true } hD hn] at hact
          rw [hD] at hact
          exact Bool.noConfusion hact

theorem dormant_transitions_witness :
    (cycle wake0 1000 init_assistant
      ⟨true, true, [['h','i'], wake0, ['o','k']], 7, true, []⟩).1.is_active = true :=
  ((dormant_transitions wake0 1000 init_assistant
      ⟨true, true, [['h','i'], wake0, ['o','k']], 7, true, []⟩ rfl).1
    [['h','i']] wake0 [['o','k']] rfl rfl rfl (by decide) (by decide)).1

/-- C3: a cycle that starts Armed never emits `Activated`; with speech
and a successful transcription every segment — wake-phrase occurrences
included — is appended to the utterance as ordinary content (a
`PartialText` event per segment, in order) and the machine stays
Armed. -/
theorem armed_no_reactivation (wake : Str) (thr : Int) (st : AssistantState)
    (inp : CycleInput) (hA : st.is_active = true) :
    Event.Activated ∉ (cycle wake thr st inp).2 ∧
    (inp.vad = true → inp.transcribeOk = true →
      (cycle wake thr st inp).1.is_active = true ∧
      (cycle wake thr st inp).1.current_segment = st.current_segment ++ inp.segs.flatten ∧
      (cycle wake thr st inp).2 = inp.segs.map Event.PartialText) := by
  constructor
  · cases hv : inp.vad with
    | true =>
      cases ht : inp.transcribeOk with
      | true =>
        rw [cycle_speech_ok wake thr st inp hv ht]
        exact processSegments_noActivated_of_armed wake inp.segs _ hA
      | false =>
        rw [cycle_speech_fail wake thr st inp hv ht]
        simp
    | false =>
      by_cases hc : (st.is_active = true ∧ thr < inp.now - st.last_speech_time ∧
          st.current_segment ≠ [])
      · obtain ⟨ha, hgap, hne⟩ := hc
        rw [cycle_silence_fire wake thr st inp hv ha hgap hne]
        simp
      · rw [cycle_silence_idle wake thr st inp hv hc]
        simp
  · intro hv ht
    rw [cycle_speech_ok wake thr st inp hv ht,
      processSegments_armed wake inp.segs
        { st with last_speech_time := inp.now, last_speech_set := true } hA]
    exact ⟨hA, rfl, rfl⟩

theorem armed_no_reactivation_witness :
    (cycle wake0 1000 ⟨true, [], 0, true⟩ ⟨true, true, [wake0], 5, true, []⟩).2 =
      List.map Event.PartialText [wake0] :=
  ((armed_no_reactivation wake0 1000 ⟨true, [], 0, true⟩
      ⟨true, true, [wake0], 5, true, []⟩ rfl).2 rfl rfl).2.2

/-- C5: starting just after activation (Armed, empty utterance), as long
as no finalize occurs, the accumulated utterance equals the
concatenation, in arrival order, of the texts appended while Armed —
the `PartialText` events — across all cycles of the run (the triggering
segment is discarded at activation, so it never appears). -/
theorem utterance_concat (wake : Str) (thr : Int) (st : AssistantState)
    (inputs : List CycleInput) (_hA : st.is_active = true)
    (hcs : st.current_segment = [])
    (hnf : emitsFinalize (run wake thr st inputs).2 = false) :
    (run wake thr st inputs).1.current_segment =
      (textsOf (run wake thr st inputs).2).flatten := by
  have h := run_cs_texts wake thr inputs st hnf
  rw [hcs] at h
  simpa using h

theorem utterance_concat_witness :
    (run wake0 1000 ⟨true, [], 0, true⟩
      [⟨true, true, [['a','b']], 5, true, []⟩,
        ⟨false, true, [], 500, true, []⟩]).1.current_segment =
      (textsOf (run wake0 1000 ⟨true, [], 0, true⟩
        [⟨true, true, [['a','b']], 5, true, []⟩,
          ⟨false, true, [], 500, true, []⟩]).2).flatten :=
  utterance_concat wake0 1000 ⟨true, [], 0, true⟩
    [⟨true, true, [['a','b']], 5, true, []⟩, ⟨false, true, [], 500, true, []⟩]
    rfl rfl (by decide)

/-- C6: in every reachable state, Dormant implies an empty utterance;
any cycle that emits `Finalize` ends Dormant with the utterance cleared;
and a silence cycle from Dormant is a complete no-op (same state, no
events). -/
theorem dormant_empty_inv (wake : Str) (thr : Int) (s : AssistantState)
    (hreach : Reachable wake thr s) :
    (s.is_active = false → s.current_segment = []) ∧
    (∀ inp : CycleInput, emitsFinalize (cycle wake thr s inp).2 = true →
      (cycle wake thr s inp).1.is_active = false ∧
      (cycle wake thr s inp).1.current_segment = []) ∧
    (∀ inp : CycleInput, s.is_active = false → inp.vad = false →
      cycle wake thr s inp = (s, [])) := by
  refine ⟨?_, ?_, ?_⟩
  · obtain ⟨inputs, rfl⟩ := hreach
    exact run_inv wake thr inputs init_assistant (fun _ => rfl)
  · intro inp hf
    obtain ⟨_, _, _, _, _, hact, hcs⟩ := cycle_finalize_clears wake thr s inp hf
    exact ⟨hact, hcs⟩
  · intro inp hD hv
    exact cycle_silence_idle wake thr s inp hv
      (by rintro ⟨ha, _, _⟩; rw [hD] at ha; exact Bool.noConfusion ha)

theorem dormant_empty_inv_witness :
    cycle wake0 1000 init_assistant ⟨false, true, [], 99999, true, []⟩ =
      (init_assistant, []) :=
  (dormant_empty_inv wake0 1000 init_assistant ⟨[], rfl⟩).2.2
    ⟨false, true, [], 99999, true, []⟩ rfl rfl

/-- C8: a transcription failure contributes zero segments — the
activation flag and the accumulated utterance are unchanged and no event
is emitted (the loop continues from the same machine state); a dispatch
failure yields the empty reply yet the finalize still clears the
utterance and returns to Dormant — the Armed-to-Dormant transition is
not prevented and the turn is not retried. -/
theorem failure_handling (wake : Str) (thr : Int) (st : AssistantState) (inp : CycleInput) :
    (inp.vad = true → inp.transcribeOk = false →
      (cycle wake thr st inp).1.is_active = st.is_active ∧
      (cycle wake thr st inp).1.current_segment = st.current_segment ∧
      (cycle wake thr st inp).2 = []) ∧
    (inp.vad = false → inp.dispatchOk = false → st.is_active = true →
      st.current_segment ≠ [] → thr < inp.now - st.last_speech_time →
      (cycle wake thr st inp).2 =
        [Event.Finalize st.current_segment, Event.Reply []] ∧
      (cycle wake thr st inp).1.is_active = false ∧
      (cycle wake thr st inp).1.current_segment = []) := by
  constructor
  · intro hv ht
    rw [cycle_speech_fail wake thr st inp hv ht]
    exact ⟨rfl, rfl, rfl⟩
  · intro hv hdk ha hne hgap
    rw [cycle_silence_fire wake thr st inp hv ha hgap hne, hdk]
    exact ⟨rfl, rfl, rfl⟩

theorem failure_handling_witness :
    (cycle wake0 1000 ⟨true, ['u'], 2, true⟩ ⟨true, false, [['x']], 9, true, []⟩).2 = [] :=
  ((failure_handling wake0 1000 ⟨true, ['u'], 2, true⟩
      ⟨true, false, [['x']], 9, true, []⟩).1 rfl rfl).2.2
